import Mathlib

/-!
Shallow embedding of the `idiot` content-addressable object store
(src/main.rs and src/tree.rs) and verification of the frozen claims.

Modelling conventions:
* Rust byte slices (`&[u8]`, `Vec<u8>`, UTF-8 `String` payloads) are `List Nat`,
  one element per byte.
* Rust panics (index out of bounds, `unwrap`, `expect`, `todo!`, `panic!`) are
  modelled as `Option.none`; functions that can panic return `Option`.
* The SHA-1 digest and the zlib compressor are external crates, so they are
  parameters `hash`/`compress : List Nat → List Nat` of every definition that
  uses them.  Claims about *which* bytes get hashed/compressed are structural
  and do not depend on the digest internals.  The decompression collaborator is
  the inverse of compression (spec section 6), so parsing
  `decompress (compress bytes)` is modelled as parsing `bytes`.
* Filesystem paths are lists of components (each a byte string); a filesystem
  subtree is the inductive `FsEntry`.  `Path::ends_with` in Rust matches whole
  path components, which is modelled as a suffix test on component lists.
-/

/-- Byte list of an ASCII string literal (UTF-8 bytes for the ASCII range). -/
def str (s : String) : List Nat := s.data.map Char.toNat

/-- Rust's `slice::split(|ch| ch == &sep)`: split a byte list at every
occurrence of `sep`; the separators are dropped, empty fragments are kept, and
the result is always nonempty. -/
def splitOn (sep : Nat) : List Nat → List (List Nat)
  | [] => [[]]
  | b :: rest =>
    if b = sep then [] :: splitOn sep rest
    else
      match splitOn sep rest with
      | s :: ss => (b :: s) :: ss
      | [] => [[b]]

theorem splitOn_ne_nil (sep : Nat) (l : List Nat) : splitOn sep l ≠ [] := by
  induction l with
  | nil => simp [splitOn]
  | cons b rest ih =>
    simp only [splitOn]
    split
    · simp
    · cases h : splitOn sep rest with
      | nil => simp
      | cons s ss => simp

theorem splitOn_not_mem {sep : Nat} {l : List Nat} (h : sep ∉ l) :
    splitOn sep l = [l] := by
  induction l with
  | nil => rfl
  | cons b rest ih =>
    simp only [List.mem_cons, not_or] at h
    simp only [splitOn, if_neg (Ne.symm h.1), ih h.2]

theorem splitOn_append_not_mem {sep : Nat} {xs : List Nat} (ys : List Nat)
    (h : sep ∉ xs) :
    splitOn sep (xs ++ ys) = (splitOn sep ys).modifyHead (xs ++ ·) := by
  induction xs with
  | nil =>
    cases hys : splitOn sep ys with
    | nil => exact absurd hys (splitOn_ne_nil sep ys)
    | cons s ss => simp [hys]
  | cons b xs ih =>
    simp only [List.mem_cons, not_or] at h
    simp only [List.cons_append, splitOn, if_neg (Ne.symm h.1)]
    simp only [List.append_eq]
    rw [ih h.2]
    cases hys : splitOn sep ys with
    | nil => exact absurd hys (splitOn_ne_nil sep ys)
    | cons s ss => simp

theorem splitOn_cons_self (sep : Nat) (ys : List Nat) :
    splitOn sep (sep :: ys) = [] :: splitOn sep ys := by
  simp [splitOn]

/-- The workhorse: splitting `xs ++ sep :: ys` where `xs` is separator-free
yields `xs` followed by the split of `ys`. -/
theorem splitOn_sandwich {sep : Nat} {xs : List Nat} (ys : List Nat)
    (h : sep ∉ xs) :
    splitOn sep (xs ++ sep :: ys) = xs :: splitOn sep ys := by
  rw [splitOn_append_not_mem _ h, splitOn_cons_self]
  simp

/-- Total length identity for `splitOn`: the fragments plus the dropped
separators account for every input byte. -/
theorem splitOn_total_length (sep : Nat) (l : List Nat) :
    ((splitOn sep l).map List.length).sum + (splitOn sep l).length
      = l.length + 1 := by
  induction l with
  | nil => simp [splitOn]
  | cons b rest ih =>
    simp only [splitOn]
    split
    · simpa using by omega
    · cases h : splitOn sep rest with
      | nil => exact absurd h (splitOn_ne_nil sep rest)
      | cons s ss =>
        rw [h] at ih
        simp only [List.map_cons, List.sum_cons, List.length_cons] at ih ⊢
        omega

/-- Decimal digit test on a byte. -/
def isDigit (b : Nat) : Bool := 48 ≤ b && b ≤ 57

/-- Value of a string of decimal digit bytes (most significant first). -/
def digitsVal (ds : List Nat) : Nat := ds.foldl (fun acc d => acc * 10 + (d - 48)) 0

/-- `usize_from_bytes` in tree.rs: UTF-8 decode then `str::parse::<usize>`.
Rust's unsigned integer parsing accepts an optional leading `+`, then one or
more decimal digits, and fails on overflow past `usize::MAX` (64-bit target).
Any failure is an error (`anyhow::Result`), modelled as `none`. -/
def usize_from_bytes (bs : List Nat) : Option Nat :=
  let ds := if bs.head? = some 43 then bs.tail else bs
  if ds ≠ [] ∧ ds.all isDigit ∧ digitsVal ds < 18446744073709551616 then
    some (digitsVal ds)
  else none

/-- Decimal byte representation of a natural number, as produced by Rust's
`format!("{}", n)`. -/
def natToDigits (n : Nat) : List Nat :=
  if h : n < 10 then [48 + n]
  else natToDigits (n / 10) ++ [48 + n % 10]
decreasing_by exact Nat.div_lt_self (by omega) (by omega)

theorem natToDigits_all_digit (n : Nat) : ∀ d ∈ natToDigits n, 48 ≤ d ∧ d ≤ 57 := by
  induction n using Nat.strong_induction_on with
  | _ n ih =>
    rw [natToDigits]
    split
    · intro d hd
      simp only [List.mem_singleton] at hd
      omega
    · intro d hd
      rw [List.mem_append] at hd
      rcases hd with hd | hd
      · exact ih (n / 10) (Nat.div_lt_self (by omega) (by omega)) d hd
      · simp only [List.mem_singleton] at hd
        have : n % 10 < 10 := Nat.mod_lt n (by omega)
        omega

theorem natToDigits_ne_nil (n : Nat) : natToDigits n ≠ [] := by
  rw [natToDigits]
  split <;> simp

theorem digitsVal_append_singleton (xs : List Nat) (d : Nat) :
    digitsVal (xs ++ [d]) = digitsVal xs * 10 + (d - 48) := by
  simp [digitsVal, List.foldl_append]

theorem digitsVal_natToDigits (n : Nat) : digitsVal (natToDigits n) = n := by
  induction n using Nat.strong_induction_on with
  | _ n ih =>
    rw [natToDigits]
    split
    · simp [digitsVal]
    · rw [digitsVal_append_singleton, ih (n / 10) (Nat.div_lt_self (by omega) (by omega))]
      omega

/-- Round trip: parsing the decimal print of `n` recovers `n` (for `n` within
`usize` range). -/
theorem usize_from_bytes_natToDigits {n : Nat} (h : n < 18446744073709551616) :
    usize_from_bytes (natToDigits n) = some n := by
  have hd := natToDigits_all_digit n
  have hne := natToDigits_ne_nil n
  have hhead : (natToDigits n).head? ≠ some 43 := by
    cases hds : natToDigits n with
    | nil => exact absurd hds hne
    | cons d ds =>
      have hdd := hd d (by rw [hds]; exact List.mem_cons_self _ _)
      intro hc
      simp only [List.head?_cons, Option.some.injEq] at hc
      omega
  unfold usize_from_bytes
  rw [if_neg hhead]
  simp only
  rw [if_pos]
  · rw [digitsVal_natToDigits]
  · refine ⟨hne, ?_, ?_⟩
    · rw [List.all_eq_true]
      intro d hdm
      have := hd d hdm
      simp only [isDigit, Bool.and_eq_true, decide_eq_true_eq]
      omega
    · rw [digitsVal_natToDigits]; exact h

theorem natToDigits_not_mem_zero (n : Nat) : 0 ∉ natToDigits n := by
  intro h
  have := natToDigits_all_digit n 0 h
  omega

theorem natToDigits_not_mem_space (n : Nat) : 32 ∉ natToDigits n := by
  intro h
  have := natToDigits_all_digit n 32 h
  omega

/-- File mode of a git tree object (tree.rs `enum Mode`). -/
inductive Mode where
  | FileBlob
  | ExeBlob
  | SubDir
  | SubMod
  | SymLink
deriving DecidableEq, Repr

/-- The numeric value of a mode (`self.mode as usize`, from the `repr(u32)`
discriminants in tree.rs). -/
def Mode.toNat : Mode → Nat
  | .FileBlob => 100644
  | .ExeBlob => 100755
  | .SubDir => 40000
  | .SubMod => 160000
  | .SymLink => 120000

/-- `Mode::new` in tree.rs; the catch-all arm panics, modelled as `none`. -/
def Mode.new (kind : Nat) : Option Mode :=
  if kind = 100644 then some .FileBlob
  else if kind = 100755 then some .ExeBlob
  else if kind = 40000 then some .SubDir
  else if kind = 160000 then some .SubMod
  else if kind = 120000 then some .SymLink
  else none

/-- A git object (tree.rs `struct GitObject` with its `ObjType` payload
flattened into one inductive: each constructor carries the struct's `mode` and
`sha` fields plus the variant-specific `ObjType` fields). -/
inductive GitObject where
  | blob (mode : Mode) (path : List Nat) (content : List Nat) (sha : Option (List Nat))
  | tree (mode : Mode) (path : Option (List Nat)) (size : Nat)
      (objs : List GitObject) (sha : Option (List Nat))
  | commit (mode : Mode) (sha : Option (List Nat))

/-- The `sha` field of an object. -/
def GitObject.sha : GitObject → Option (List Nat)
  | .blob _ _ _ s => s
  | .tree _ _ _ _ s => s
  | .commit _ s => s

/-- The `mode` field of an object. -/
def GitObject.modeOf : GitObject → Mode
  | .blob m _ _ _ => m
  | .tree m _ _ _ _ => m
  | .commit m _ => m

/-- The defined path of an object, when it has one: a blob's path, or a tree's
path when present (this is the shape matched by the first arm of
`impl Ord for GitObject`). -/
def GitObject.pathOf : GitObject → Option (List Nat)
  | .blob _ p _ _ => some p
  | .tree _ (some p) _ _ _ => some p
  | _ => none

/-- Byte-wise lexicographic comparison of byte strings: Rust's `Ord` on
`String` compares the underlying UTF-8 bytes lexicographically. -/
def compareBytes : List Nat → List Nat → Ordering
  | [], [] => .eq
  | [], _ :: _ => .lt
  | _ :: _, [] => .gt
  | a :: as, b :: bs =>
    match compare a b with
    | .eq => compareBytes as bs
    | o => o

/-- `impl Ord for GitObject` in tree.rs, arm for arm.  The first (or-pattern)
arm compares any two path-carrying objects by path; the remaining arms are
reachable only when one side is a pathless tree or a commit. -/
def gitCmp : GitObject → GitObject → Ordering
  | .blob _ a _ _, .blob _ b _ _ => compareBytes a b
  | .blob _ a _ _, .tree _ (some b) _ _ _ => compareBytes a b
  | .tree _ (some a) _ _ _, .blob _ b _ _ => compareBytes a b
  | .tree _ (some a) _ _ _, .tree _ (some b) _ _ _ => compareBytes a b
  | .blob _ _ _ _, .tree _ none _ _ _ => .gt
  | .blob _ _ _ _, .commit _ _ => .gt
  | .tree _ none _ _ _, .tree _ _ _ _ _ => .lt
  | .tree _ _ _ _ _, .tree _ none _ _ _ => .gt
  | .tree _ none _ _ _, .blob _ _ _ _ => .lt
  | .tree _ _ _ _ _, .commit _ _ => .gt
  | .commit _ _, .blob _ _ _ _ => .lt
  | .commit _ _, .tree _ _ _ _ _ => .lt
  | .commit _ _, .commit _ _ => .eq

/-- Stable insertion into a sorted list: the new element goes before the first
element it does not compare greater than (ties keep earlier elements first,
matching Rust's stable `slice::sort`). -/
def insertObj (x : GitObject) : List GitObject → List GitObject
  | [] => [x]
  | y :: ys => if gitCmp x y = .lt then x :: y :: ys else y :: insertObj x ys

/-- `objs.sort()` in tree.rs: stable sort by `gitCmp`. -/
def sortObjs : List GitObject → List GitObject
  | [] => []
  | x :: xs => insertObj x (sortObjs xs)

/-- `GitObject::tree_content_bytes`: the canonical per-entry encoding
`"<mode> <path>\0"` followed by the 20 raw sha bytes, or a single NUL byte when
the sha is absent (`sha.map_or(b"\0", ...)`).  The `todo!()` arms (pathless
tree, commit) panic, modelled as `none`. -/
def tree_content_bytes : GitObject → Option (List Nat)
  | .blob mode path _ sha =>
    some (natToDigits (Mode.toNat mode) ++ 32 :: path ++ 0 :: sha.getD [0])
  | .tree mode (some path) _ _ sha =>
    some (natToDigits (Mode.toNat mode) ++ 32 :: path ++ 0 :: sha.getD [0])
  | _ => none

/-- `objs.iter().flat_map(|o| o.tree_content_bytes())` with panic
propagation: the concatenation of the children's entry encodings. -/
def tree_content_list : List GitObject → Option (List Nat)
  | [] => some []
  | o :: os =>
    match tree_content_bytes o with
    | none => none
    | some b =>
      match tree_content_list os with
      | none => none
      | some r => some (b ++ r)

/-- `compress_and_hash` in tree.rs: compress the bytes with zlib, then hash
the *uncompressed* input bytes with SHA-1, returning `(sha, compressed)`.
`hash` and `compress` are the external SHA-1 and zlib collaborators. -/
def compress_and_hash (hash compress : List Nat → List Nat)
    (bytes : List Nat) : List Nat × List Nat :=
  (hash bytes, compress bytes)

/-- The hashing path of the `hash-object` command (main.rs `Command::HashObject`):
the file bytes are compressed first and the SHA-1 is computed over the
*compressed* stream. -/
def hash_object_sha (hash compress : List Nat → List Nat)
    (bytes : List Nat) : List Nat :=
  hash (compress bytes)

/-- Components of a pattern string viewed as a `Path` (split at `/`, empty
components dropped), as `Path::new(s).components()` yields for the plain
patterns involved here. -/
def pathComponents (s : List Nat) : List (List Nat) :=
  (splitOn 47 s).filter (· ≠ [])

/-- `path_in_ignore` in tree.rs: true when the path ends with any configured
pattern.  Rust's `Path::ends_with` only considers whole path components, so a
filesystem path is a list of components and the test is a component-list
suffix check.  The ignore set (the lazily initialised global `IGNORE`) is a
parameter. -/
def path_in_ignore (ignore : List (List Nat)) (p : List (List Nat)) : Bool :=
  ignore.any (fun s => (pathComponents s).isSuffixOf p)

/-- Textual rendering of a component path (components joined by `/`), for
stating what a plain string-suffix match would be. -/
def renderPath (p : List (List Nat)) : List Nat :=
  List.intercalate [47] p

/-- A filesystem subtree: what `from_path` walks.  A file carries its raw
content bytes and an executable-permission bit (which the code never reads);
a directory carries its entries in directory-iteration order. -/
inductive FsEntry where
  | file (name : List Nat) (content : List Nat) (exec : Bool)
  | dir (name : List Nat) (entries : List FsEntry)

/-- The final path component of an entry. -/
def fsName : FsEntry → List Nat
  | .file n _ _ => n
  | .dir n _ => n

/-- The `tree_bytes[2..].windows(2)` pass of `GitObject::from_bytes`: each
adjacent pair `(a, b)` of fragments contributes `a[20..] ++ "\0" ++ b[..20]`
(the previous entry's trailing text after its sha, a restored NUL, and the
next fragment's leading 20 sha bytes). -/
def windowObjs : List (List Nat) → List (List Nat)
  | a :: b :: rest => (a.drop 20 ++ 0 :: b.take 20) :: windowObjs (b :: rest)
  | _ => []

theorem mem_of_getLast?_eq : ∀ {l : List (List Nat)} {a : List Nat},
    l.getLast? = some a → a ∈ l
  | [], a, h => by simp at h
  | [x], a, h => by
    simp only [List.getLast?_singleton, Option.some.injEq] at h
    simp [h]
  | x :: y :: rest, a, h => by
    rw [List.getLast?_cons_cons] at h
    exact List.mem_cons_of_mem _ (mem_of_getLast?_eq h)

theorem windowObjs_sum : ∀ (ts : List (List Nat)),
    (∀ u ∈ ts, 20 ≤ u.length) → ∀ a, ts.getLast? = some a →
    ((windowObjs ts).map List.length).sum + a.length + 1
      = (ts.map List.length).sum + ts.length
  | [], _, a, h => by simp at h
  | [x], hlen, a, h => by
    simp only [List.getLast?_singleton, Option.some.injEq] at h
    subst h
    simp [windowObjs]
  | x :: y :: rest, hlen, a, h => by
    rw [List.getLast?_cons_cons] at h
    have ih := windowObjs_sum (y :: rest)
      (fun u hu => hlen u (List.mem_cons_of_mem _ hu)) a h
    have hx : 20 ≤ x.length := hlen x (List.mem_cons_self _ _)
    have hy : 20 ≤ y.length :=
      hlen y (List.mem_cons_of_mem _ (List.mem_cons_self _ _))
    simp only [windowObjs, List.map_cons, List.sum_cons, List.length_cons] at ih ⊢
    rw [List.length_append, List.length_cons, List.length_drop, List.length_take]
    omega

/-- Every recursive argument that the tree branch of `from_bytes` hands to the
child parses is built from fragments of the NUL-split of the input, and their
total length is strictly below the input length (the header fragment and the
final 20-byte sha fragment are never re-consumed in full). -/
theorem entries_sum_lt {bytes t0 t1 : List Nat} {ts : List (List Nat)}
    (h : splitOn 0 bytes = t0 :: t1 :: ts) (hne : ts ≠ [])
    (hlen : ∀ u ∈ ts, 20 ≤ u.length) :
    (((t1 ++ 0 :: (ts.headD []).take 20) :: windowObjs ts).map List.length).sum
      < bytes.length := by
  obtain ⟨a, ha⟩ : ∃ a, ts.getLast? = some a := by
    cases ts with
    | nil => exact absurd rfl hne
    | cons u us => exact Option.isSome_iff_exists.mp (List.getLast?_isSome.mpr (by simp))
  have hW := windowObjs_sum ts hlen a ha
  have htot := splitOn_total_length 0 bytes
  rw [h] at htot
  have hha : 20 ≤ a.length := hlen a (mem_of_getLast?_eq ha)
  have hhead : 20 ≤ (ts.headD []).length := by
    cases ts with
    | nil => exact absurd rfl hne
    | cons u us => exact hlen u (List.mem_cons_self _ _)
  simp only [List.map_cons, List.sum_cons, List.length_cons, List.length_append,
    List.length_take] at htot hW ⊢
  omega

/-- The non-tree (else) branch of `GitObject::from_bytes`: split the raw bytes
once at the first space to read the numeric mode (panic if not a number or not
a valid mode), then split the remainder at NUL into exactly a name and a sha
(empty sha means a deletion marker, `sha = None`); any other shape panics.
The blob content is the placeholder bytes `"NOT REAL YET"`. -/
def parse_entry (bytes : List Nat) : Option GitObject :=
  match usize_from_bytes (bytes.takeWhile (· ≠ 32)) with
  | none => none
  | some m =>
    match Mode.new m with
    | none => none
    | some mode =>
      match bytes.dropWhile (· ≠ 32) with
      | [] => none
      | _ :: rest =>
        match splitOn 0 rest with
        | [name, sha] =>
          if sha = [] then some (.blob mode name (str "NOT REAL YET") none)
          else some (.blob mode name (str "NOT REAL YET") (some sha))
        | _ => none

mutual

/-- `GitObject::from_bytes`.  The input is split at every NUL byte.  If the
first fragment reads `"tree <size>"`, the entry list is rebuilt from the
fragments: the first entry is fragment 1 plus a NUL plus the first 20 bytes of
fragment 2, and each adjacent pair of later fragments contributes
`prev[20..] ++ NUL ++ next[..20]` (`windowObjs`); every rebuilt entry is then
parsed recursively, and the result is a pathless tree with `sha = None`.
Index-out-of-range panics (no fragment after the header, or a fragment
shorter than the 20 sha bytes it must supply) are `none`.  Any other header
falls through to the single-entry parser on the original bytes. -/
def from_bytes (bytes : List Nat) : Option GitObject :=
  match h : splitOn 0 bytes with
  | t0 :: rest0 =>
    match splitOn 32 t0 with
    | [t, size_bytes] =>
      if t = str "tree" then
        match usize_from_bytes size_bytes with
        | none => none
        | some size =>
          match hr : rest0 with
          | t1 :: ts =>
            if hts : ts ≠ [] then
              if hlen : ∀ u ∈ ts, 20 ≤ u.length then
                match from_bytes_list
                    ((t1 ++ 0 :: (ts.headD []).take 20) :: windowObjs ts) with
                | none => none
                | some objs => some (.tree .SubDir none size objs none)
              else none
            else none
          | [] => none
      else parse_entry bytes
    | _ => parse_entry bytes
  | [] => parse_entry bytes
termination_by ((bytes.length, 0) : Nat × Nat)
decreasing_by
  exact Prod.Lex.left _ _ (entries_sum_lt h hts hlen)

/-- `objs.iter().map(|b| GitObject::from_bytes(b)).collect()`: parse every
rebuilt entry, any panic propagating. -/
def from_bytes_list (es : List (List Nat)) : Option (List GitObject) :=
  match es with
  | [] => some []
  | e :: rest =>
    match from_bytes e with
    | none => none
    | some o =>
      match from_bytes_list rest with
      | none => none
      | some os => some (o :: os)
termination_by (((es.map List.length).sum, es.length) : Nat × Nat)
decreasing_by
  · simp only [List.map_cons, List.sum_cons, List.length_cons]
    rcases Nat.eq_zero_or_pos ((rest.map List.length).sum) with hz | hp
    · rw [hz, Nat.add_zero]
      exact Prod.Lex.right _ (by omega)
    · exact Prod.Lex.left _ _ (by omega)
  · simp only [List.map_cons, List.sum_cons, List.length_cons]
    rcases Nat.eq_zero_or_pos e.length with hz | hp
    · rw [hz, Nat.zero_add]
      exact Prod.Lex.right _ (by omega)
    · exact Prod.Lex.left _ _ (by omega)

end

mutual

/-- `GitObject::from_path`.  `parent` is the component path of the directory
containing the entry (the walk passes each entry's full path down).  A file
becomes a blob: its canonical bytes `"blob <len>\0" ++ content` are hashed and
compressed, the compressed stream is kept as the blob's `content` and the hash
as its `sha`.  A directory builds its surviving children, sorts them, encodes
them with `tree_content_bytes`, and becomes a tree whose `size` is the length
of the concatenated child encodings and whose `sha` is the hash of
`"tree <size>\0" ++ <child encodings>`.  `hash`/`compress` are the SHA-1 and
zlib collaborators; `ignore` is the global `IGNORE` pattern set. -/
def from_path (hash compress : List Nat → List Nat) (ignore : List (List Nat))
    (parent : List (List Nat)) : FsEntry → Option GitObject
  | .file name content _exec =>
    let data := str "blob " ++ natToDigits content.length ++ 0 :: content
    let hc := compress_and_hash hash compress data
    some (.blob .FileBlob name hc.2 (some hc.1))
  | .dir name es =>
    match from_path_children hash compress ignore (parent ++ [name]) es with
    | none => none
    | some children =>
      let objs := sortObjs children
      match tree_content_list objs with
      | none => none
      | some bytes =>
        let content := str "tree " ++ natToDigits bytes.length ++ 0 :: bytes
        let hc := compress_and_hash hash compress content
        some (.tree .SubDir (some name) bytes.length objs (some hc.1))
termination_by e => sizeOf e

/-- The `read_dir` loop of `from_path`'s directory branch: entries whose full
path matches the ignore set are skipped, the rest are built recursively, any
failure propagating. -/
def from_path_children (hash compress : List Nat → List Nat)
    (ignore : List (List Nat)) (parent : List (List Nat)) :
    List FsEntry → Option (List GitObject)
  | [] => some []
  | e :: rest =>
    if path_in_ignore ignore (parent ++ [fsName e]) then
      from_path_children hash compress ignore parent rest
    else
      match from_path hash compress ignore parent e with
      | none => none
      | some o =>
        match from_path_children hash compress ignore parent rest with
        | none => none
        | some os => some (o :: os)
termination_by es => sizeOf es

end

mutual

/-- `p` holds at every node of the object tree (the object itself and,
recursively, every object in a tree's `objs`). -/
def allObjs (p : GitObject → Bool) : GitObject → Bool
  | .blob m pa c s => p (.blob m pa c s)
  | .tree m pa sz objs s => p (.tree m pa sz objs s) && allObjsList p objs
  | .commit m s => p (.commit m s)
termination_by o => sizeOf o

/-- `allObjs` over a list of children. -/
def allObjsList (p : GitObject → Bool) : List GitObject → Bool
  | [] => true
  | o :: os => allObjs p o && allObjsList p os
termination_by os => sizeOf os

end

/-- The bytes the `write-tree` command persists for a tree object
(main.rs `Command::WriteTree`): `"tree <size>\0"` followed by the children's
entry encodings, rebuilt from the object's `size` and `objs` fields.  These
are the canonical bytes; zlib compression is applied to them before writing,
and decompression on read returns exactly them. -/
def tree_store_bytes : GitObject → Option (List Nat)
  | .tree _ _ size objs _ =>
    match tree_content_list objs with
    | none => none
    | some bs => some (str "tree " ++ natToDigits size ++ 0 :: bs)
  | _ => none

/-- Unfolding lemma for the tree branch of `from_bytes` when all the panics
are avoided: the rebuilt entries are parsed and wrapped in a pathless,
sha-less tree. -/
theorem from_bytes_tree_step {bytes t0 sb t1 : List Nat} {ts : List (List Nat)}
    {size : Nat}
    (h : splitOn 0 bytes = t0 :: t1 :: ts)
    (hh : splitOn 32 t0 = [str "tree", sb])
    (hsz : usize_from_bytes sb = some size)
    (hts : ts ≠ []) (hlen : ∀ u ∈ ts, 20 ≤ u.length) :
    from_bytes bytes =
      match from_bytes_list ((t1 ++ 0 :: (ts.headD []).take 20) :: windowObjs ts) with
      | none => none
      | some objs => some (.tree .SubDir none size objs none) := by
  rw [from_bytes]
  split
  · rename_i t0' rest0' h'
    rw [h] at h'
    injection h' with h1 h2
    subst h1
    subst h2
    rw [hh]
    simp only
    rw [if_pos trivial, hsz]
    simp only
    rw [dif_pos hts, dif_pos hlen]
  · rename_i h'
    rw [h] at h'
    exact absurd h' (by simp)

/-- Unfolding lemma for the tree branch when the input has only two NUL
fragments: `tree_bytes[2]` is out of bounds, a panic. -/
theorem from_bytes_tree_two_fragments {bytes t0 sb t1 : List Nat} {size : Nat}
    (h : splitOn 0 bytes = [t0, t1])
    (hh : splitOn 32 t0 = [str "tree", sb])
    (hsz : usize_from_bytes sb = some size) :
    from_bytes bytes = none := by
  rw [from_bytes]
  split
  · rename_i t0' rest0' h'
    rw [h] at h'
    injection h' with h1 h2
    subst h1
    subst h2
    rw [hh]
    simp only
    rw [if_pos trivial, hsz]
    simp only
    rw [dif_neg (by simp)]
  · rename_i h'
    rw [h] at h'
    exact absurd h' (by simp)

/-- Unfolding lemma for the tree branch when some fragment past the header is
shorter than the 20 sha bytes it must supply: an out-of-range slice, a
panic. -/
theorem from_bytes_tree_badlen {bytes t0 sb t1 : List Nat} {ts : List (List Nat)}
    {size : Nat}
    (h : splitOn 0 bytes = t0 :: t1 :: ts)
    (hh : splitOn 32 t0 = [str "tree", sb])
    (hsz : usize_from_bytes sb = some size)
    (hts : ts ≠ []) (hbad : ¬ ∀ u ∈ ts, 20 ≤ u.length) :
    from_bytes bytes = none := by
  rw [from_bytes]
  split
  · rename_i t0' rest0' h'
    rw [h] at h'
    injection h' with h1 h2
    subst h1
    subst h2
    rw [hh]
    simp only
    rw [if_pos trivial, hsz]
    simp only
    rw [dif_pos hts, dif_neg hbad]
  · rename_i h'
    rw [h] at h'
    exact absurd h' (by simp)

/-- When the first NUL fragment does not split (at spaces) into exactly two
tokens, `from_bytes` falls through to the single-entry parser. -/
theorem from_bytes_header_not_pair {bytes t0 : List Nat} {rest0 l : List (List Nat)}
    (h : splitOn 0 bytes = t0 :: rest0)
    (hh : splitOn 32 t0 = l)
    (hshape : ∀ t sb, l ≠ [t, sb]) :
    from_bytes bytes = parse_entry bytes := by
  rw [from_bytes]
  split
  · rename_i t0' rest0' h'
    rw [h] at h'
    injection h' with h1 h2
    subst h1
    subst h2
    rw [hh]
    match l, hshape with
    | [], _ => rfl
    | [a], _ => rfl
    | a :: b :: c :: ds, _ => rfl
    | [a, b], hshape => exact absurd rfl (hshape a b)
  · rename_i h'
    rw [h] at h'

/-- When the header splits into two tokens but the first is not `"tree"`,
`from_bytes` falls through to the single-entry parser. -/
theorem from_bytes_header_not_tree {bytes t0 t sb : List Nat} {rest0 : List (List Nat)}
    (h : splitOn 0 bytes = t0 :: rest0)
    (hh : splitOn 32 t0 = [t, sb])
    (hne : t ≠ str "tree") :
    from_bytes bytes = parse_entry bytes := by
  rw [from_bytes]
  split
  · rename_i t0' rest0' h'
    rw [h] at h'
    injection h' with h1 h2
    subst h1
    subst h2
    rw [hh]
    simp only
    rw [if_neg hne]
  · rename_i h'
    rw [h] at h'

theorem takeWhile_stops {p : Nat → Bool} :
    ∀ (xs : List Nat), (∀ x ∈ xs, p x = true) → ∀ {y : Nat}, p y = false →
    ∀ (ys : List Nat), (xs ++ y :: ys).takeWhile p = xs
  | [], _, y, hy, ys => by simp [List.takeWhile, hy]
  | x :: xs, hall, y, hy, ys => by
    have hx := hall x (List.mem_cons_self _ _)
    simp only [List.cons_append, List.takeWhile_cons, hx, if_true]
    rw [takeWhile_stops xs (fun a ha => hall a (List.mem_cons_of_mem _ ha)) hy ys]

theorem dropWhile_stops {p : Nat → Bool} :
    ∀ (xs : List Nat), (∀ x ∈ xs, p x = true) → ∀ {y : Nat}, p y = false →
    ∀ (ys : List Nat), (xs ++ y :: ys).dropWhile p = y :: ys
  | [], _, y, hy, ys => by simp [List.dropWhile, hy]
  | x :: xs, hall, y, hy, ys => by
    have hx := hall x (List.mem_cons_self _ _)
    simp only [List.cons_append, List.dropWhile_cons, hx, if_true]
    exact dropWhile_stops xs (fun a ha => hall a (List.mem_cons_of_mem _ ha)) hy ys

theorem mode_toNat_lt (mode : Mode) : Mode.toNat mode < 18446744073709551616 := by
  cases mode <;> decide

theorem mode_new_toNat (mode : Mode) : Mode.new (Mode.toNat mode) = some mode := by
  cases mode <;> rfl

theorem natToDigits_ne_str_tree (n : Nat) : natToDigits n ≠ str "tree" := by
  intro h
  have := natToDigits_all_digit n 116 (by rw [h]; decide)
  omega

/-- Evaluation of the single-entry parser on a canonical entry encoding
`"<mode> <path>\0" ++ sha` with a NUL-free path and NUL-free sha bytes:
the mode, path, and sha are recovered, an empty sha becoming `None`. -/
theorem parse_entry_spec (mode : Mode) (p s : List Nat)
    (hp0 : 0 ∉ p) (hs0 : 0 ∉ s) :
    parse_entry (natToDigits (Mode.toNat mode) ++ 32 :: p ++ 0 :: s) =
      some (.blob mode p (str "NOT REAL YET")
        (if s = [] then none else some s)) := by
  have hdig : ∀ x ∈ natToDigits (Mode.toNat mode), (x ≠ 32 : Bool) = true := by
    intro x hx
    have := natToDigits_all_digit _ x hx
    simp only [ne_eq, decide_eq_true_eq]
    omega
  have h32 : ((32 : Nat) ≠ 32 : Bool) = false := by simp
  have htake := takeWhile_stops (natToDigits (Mode.toNat mode)) hdig h32 (p ++ 0 :: s)
  have hdrop := dropWhile_stops (natToDigits (Mode.toNat mode)) hdig h32 (p ++ 0 :: s)
  rw [parse_entry]
  rw [show natToDigits (Mode.toNat mode) ++ 32 :: p ++ 0 :: s
    = natToDigits (Mode.toNat mode) ++ 32 :: (p ++ 0 :: s) from by simp]
  rw [htake, hdrop, usize_from_bytes_natToDigits (mode_toNat_lt mode)]
  simp only
  rw [mode_new_toNat]
  simp only
  rw [splitOn_sandwich _ hp0, splitOn_not_mem hs0]
  by_cases hse : s = [] <;> simp [hse]

/-- `from_bytes` on a canonical entry encoding always falls through to the
single-entry parser: a decimal mode token is never the token `"tree"`. -/
theorem from_bytes_entry_eq_parse (mode : Mode) (p s : List Nat)
    (hp0 : 0 ∉ p) (hs0 : 0 ∉ s) :
    from_bytes (natToDigits (Mode.toNat mode) ++ 32 :: p ++ 0 :: s) =
      parse_entry (natToDigits (Mode.toNat mode) ++ 32 :: p ++ 0 :: s) := by
  have hhdr0 : (0 : Nat) ∉ natToDigits (Mode.toNat mode) ++ 32 :: p := by
    simp only [List.mem_append, List.mem_cons, not_or]
    exact ⟨natToDigits_not_mem_zero _, by omega, hp0⟩
  have h : splitOn 0 (natToDigits (Mode.toNat mode) ++ 32 :: p ++ 0 :: s)
      = (natToDigits (Mode.toNat mode) ++ 32 :: p) :: splitOn 0 s := by
    rw [show natToDigits (Mode.toNat mode) ++ 32 :: p ++ 0 :: s
      = (natToDigits (Mode.toNat mode) ++ 32 :: p) ++ 0 :: s from by simp]
    exact splitOn_sandwich _ hhdr0
  have hhdr : splitOn 32 (natToDigits (Mode.toNat mode) ++ 32 :: p)
      = natToDigits (Mode.toNat mode) :: splitOn 32 p :=
    splitOn_sandwich _ (natToDigits_not_mem_space _)
  cases hsp : splitOn 32 p with
  | nil => exact absurd hsp (splitOn_ne_nil 32 p)
  | cons q qs =>
    cases qs with
    | nil =>
      have hh2 : splitOn 32 (natToDigits (Mode.toNat mode) ++ 32 :: p)
          = [natToDigits (Mode.toNat mode), q] := by rw [hhdr, hsp]
      exact from_bytes_header_not_tree h hh2 (natToDigits_ne_str_tree _)
    | cons q' qs' =>
      have hh2 : splitOn 32 (natToDigits (Mode.toNat mode) ++ 32 :: p)
          = natToDigits (Mode.toNat mode) :: q :: q' :: qs' := by rw [hhdr, hsp]
      exact from_bytes_header_not_pair h hh2 (by intro t sb hc; simp at hc)

/-- `from_bytes` recovers a canonical entry: mode, path, and sha, an empty
sha becoming `None`. -/
theorem from_bytes_entry_spec (mode : Mode) (p s : List Nat)
    (hp0 : 0 ∉ p) (hs0 : 0 ∉ s) :
    from_bytes (natToDigits (Mode.toNat mode) ++ 32 :: p ++ 0 :: s) =
      some (.blob mode p (str "NOT REAL YET")
        (if s = [] then none else some s)) := by
  rw [from_bytes_entry_eq_parse mode p s hp0 hs0, parse_entry_spec mode p s hp0 hs0]

/-- A tree entry in abstract form: the data a canonical per-entry encoding
carries. -/
structure TEntry where
  mode : Mode
  path : List Nat
  sha : List Nat

/-- The textual header of an entry encoding: decimal mode, space, path. -/
def hdrE (e : TEntry) : List Nat := natToDigits (Mode.toNat e.mode) ++ 32 :: e.path

/-- The canonical per-entry encoding with a present sha:
`"<mode> <path>\0" ++ sha`. -/
def encEntry (e : TEntry) : List Nat := hdrE e ++ 0 :: e.sha

/-- Well-formedness of an entry for parsing: NUL-free path and exactly 20
NUL-free sha bytes. -/
def entryOk (e : TEntry) : Prop := 0 ∉ e.path ∧ e.sha.length = 20 ∧ 0 ∉ e.sha

/-- The `GitObject` that `from_bytes` builds for an entry: a shallow blob
reference with placeholder content. -/
def entryObj (e : TEntry) : GitObject :=
  .blob e.mode e.path (str "NOT REAL YET") (some e.sha)

/-- The NUL fragments of an encoded entry sequence after the first header
fragment: each fragment is the previous entry's sha glued to the next entry's
header, the last being the final sha alone. -/
def tsOf : List TEntry → List (List Nat)
  | [] => []
  | [e] => [e.sha]
  | e :: f :: r => (e.sha ++ hdrE f) :: tsOf (f :: r)

theorem hdrE_not_mem_zero {e : TEntry} (h : 0 ∉ e.path) : 0 ∉ hdrE e := by
  simp only [hdrE, List.mem_append, List.mem_cons, not_or]
  exact ⟨natToDigits_not_mem_zero _, by omega, h⟩

theorem splitOn_body : ∀ (e : TEntry) (es : List TEntry),
    (∀ x ∈ e :: es, entryOk x) →
    splitOn 0 ((e :: es).flatMap encEntry) = hdrE e :: tsOf (e :: es)
  | e, [], hok => by
    have ⟨hp, _, hs⟩ := hok e (List.mem_cons_self _ _)
    simp only [List.flatMap_cons, List.flatMap_nil, List.append_nil, encEntry, tsOf]
    rw [splitOn_sandwich _ (hdrE_not_mem_zero hp), splitOn_not_mem hs]
  | e, f :: r, hok => by
    have ⟨hp, _, hs⟩ := hok e (List.mem_cons_self _ _)
    have ih := splitOn_body f r (fun x hx => hok x (List.mem_cons_of_mem _ hx))
    simp only [List.flatMap_cons, encEntry, tsOf, List.append_assoc,
      List.cons_append] at ih ⊢
    rw [splitOn_sandwich _ (hdrE_not_mem_zero hp),
      splitOn_append_not_mem _ hs, ih]
    simp

theorem tsOf_ne_nil (e : TEntry) (es : List TEntry) : tsOf (e :: es) ≠ [] := by
  cases es <;> simp [tsOf]

theorem tsOf_len : ∀ (es : List TEntry), (∀ x ∈ es, entryOk x) →
    ∀ u ∈ tsOf es, 20 ≤ u.length
  | [], _, u, hu => by simp [tsOf] at hu
  | [e], hok, u, hu => by
    have ⟨_, hlen, _⟩ := hok e (List.mem_cons_self _ _)
    simp only [tsOf, List.mem_singleton] at hu
    subst hu
    omega
  | e :: f :: r, hok, u, hu => by
    simp only [tsOf, List.mem_cons] at hu
    rcases hu with hu | hu
    · have ⟨_, hlen, _⟩ := hok e (List.mem_cons_self _ _)
      rw [hu]
      simp only [List.length_append]
      omega
    · exact tsOf_len (f :: r) (fun x hx => hok x (List.mem_cons_of_mem _ hx)) u hu

theorem tsOf_head_take {e : TEntry} (es : List TEntry) (hlen : e.sha.length = 20) :
    ((tsOf (e :: es)).headD []).take 20 = e.sha := by
  cases es with
  | nil =>
    simp only [tsOf, List.headD_cons]
    rw [← hlen, List.take_length]
  | cons f r =>
    simp only [tsOf, List.headD_cons]
    rw [← hlen, List.take_left]

theorem windowObjs_tsOf : ∀ (e : TEntry) (es : List TEntry),
    (∀ x ∈ e :: es, entryOk x) →
    windowObjs (tsOf (e :: es)) = es.map encEntry
  | e, [], _ => by simp [tsOf, windowObjs]
  | e, f :: r, hok => by
    have ⟨_, hlen, _⟩ := hok e (List.mem_cons_self _ _)
    have ⟨_, hflen, _⟩ := hok f (List.mem_cons_of_mem _ (List.mem_cons_self _ _))
    have ih := windowObjs_tsOf f r (fun x hx => hok x (List.mem_cons_of_mem _ hx))
    have hhead : ((tsOf (f :: r)).headD []).take 20 = f.sha := tsOf_head_take r hflen
    have hdrop : (e.sha ++ hdrE f).drop 20 = hdrE f := by
      rw [← hlen]; exact List.drop_left _ _
    cases hts : tsOf (f :: r) with
    | nil => exact absurd hts (tsOf_ne_nil f r)
    | cons u us =>
      rw [hts] at ih hhead
      simp only [List.headD_cons] at hhead
      simp only [tsOf]
      rw [hts]
      simp only [windowObjs]
      rw [hdrop, hhead, ih]
      simp [encEntry]

/-- Parsing every rebuilt entry of a well-formed encoded sequence succeeds,
yielding the shallow blob references. -/
theorem from_bytes_list_entries : ∀ (es : List TEntry), (∀ x ∈ es, entryOk x) →
    from_bytes_list (es.map encEntry) = some (es.map entryObj)
  | [], _ => by rw [List.map_nil, from_bytes_list]; simp
  | e :: es, hok => by
    have ⟨hp, hlen, hs⟩ := hok e (List.mem_cons_self _ _)
    have ih := from_bytes_list_entries es (fun x hx => hok x (List.mem_cons_of_mem _ hx))
    have he : from_bytes (encEntry e) = some (entryObj e) := by
      have := from_bytes_entry_spec e.mode e.path e.sha hp hs
      rw [if_neg (by intro hc; rw [hc] at hlen; simp at hlen)] at this
      simpa [encEntry, hdrE, entryObj] using this
    rw [List.map_cons, from_bytes_list, he, ih]
    simp

/-- Core tree-parse lemma: on a well-formed tree encoding
`"tree <n>\0"` followed by back-to-back entries whose 20 sha bytes are
NUL-free, `from_bytes` recovers every entry (as a shallow blob reference) and
wraps them in a pathless tree carrying the parsed size and no sha. -/
theorem parse_tree_core {n : Nat} (hn : n < 18446744073709551616)
    (es : List TEntry) (hne : es ≠ []) (hok : ∀ x ∈ es, entryOk x) :
    from_bytes (str "tree " ++ natToDigits n ++ 0 :: es.flatMap encEntry)
      = some (.tree .SubDir none n (es.map entryObj) none) := by
  cases es with
  | nil => exact absurd rfl hne
  | cons e rest =>
    have hsb := splitOn_body e rest hok
    have h0 : (0 : Nat) ∉ str "tree " ++ natToDigits n := by
      simp only [List.mem_append, not_or]
      exact ⟨by decide, natToDigits_not_mem_zero n⟩
    have h : splitOn 0 (str "tree " ++ natToDigits n ++ 0 :: (e :: rest).flatMap encEntry)
        = (str "tree " ++ natToDigits n) :: hdrE e :: tsOf (e :: rest) := by
      rw [show str "tree " ++ natToDigits n ++ 0 :: (e :: rest).flatMap encEntry
          = (str "tree " ++ natToDigits n) ++ 0 :: (e :: rest).flatMap encEntry from by simp]
      rw [splitOn_sandwich _ h0, hsb]
    have hh : splitOn 32 (str "tree " ++ natToDigits n) = [str "tree", natToDigits n] := by
      rw [show str "tree " ++ natToDigits n = str "tree" ++ 32 :: natToDigits n from by rfl]
      rw [splitOn_sandwich _ (by decide), splitOn_not_mem (natToDigits_not_mem_space n)]
    have hstep := from_bytes_tree_step h hh (usize_from_bytes_natToDigits hn)
      (tsOf_ne_nil e rest) (tsOf_len (e :: rest) hok)
    have ⟨_, hlen, _⟩ := hok e (List.mem_cons_self _ _)
    rw [hstep, tsOf_head_take rest hlen, windowObjs_tsOf e rest hok]
    have : (hdrE e ++ 0 :: e.sha) :: rest.map encEntry = (e :: rest).map encEntry := by
      simp [encEntry]
    rw [this, from_bytes_list_entries (e :: rest) hok]

/-- The blob object built by `from_path` for a file with the given name and
content: the compressed canonical blob bytes as content, their hash as sha. -/
def fileBlob (hash compress : List Nat → List Nat) (name content : List Nat) : GitObject :=
  .blob .FileBlob name (compress (str "blob " ++ natToDigits content.length ++ 0 :: content))
    (some (hash (str "blob " ++ natToDigits content.length ++ 0 :: content)))

theorem from_path_file (hash compress : List Nat → List Nat) (ign parent : List (List Nat))
    (name content : List Nat) (ex : Bool) :
    from_path hash compress ign parent (.file name content ex)
      = some (fileBlob hash compress name content) := by
  rw [from_path]
  rfl

/-- Elimination of a successful directory build: the children were built and
filtered, sorted, encoded; the tree records the encoded length as `size` and
hashes `"tree <size>\0" ++ encodings`. -/
theorem from_path_dir_elim {hash compress : List Nat → List Nat}
    {ign parent : List (List Nat)} {name : List Nat} {es : List FsEntry}
    {o : GitObject}
    (h : from_path hash compress ign parent (.dir name es) = some o) :
    ∃ children bytes,
      from_path_children hash compress ign (parent ++ [name]) es = some children ∧
      tree_content_list (sortObjs children) = some bytes ∧
      o = .tree .SubDir (some name) bytes.length (sortObjs children)
          (some (hash (str "tree " ++ natToDigits bytes.length ++ 0 :: bytes))) := by
  rw [from_path] at h
  revert h
  cases hc : from_path_children hash compress ign (parent ++ [name]) es with
  | none => intro h; exact absurd h (by simp)
  | some children =>
    simp only
    cases ht : tree_content_list (sortObjs children) with
    | none => intro h; exact absurd h (by simp)
    | some bytes =>
      intro h
      simp only [compress_and_hash, Option.some.injEq] at h
      exact ⟨children, bytes, rfl, ht, h.symm⟩

theorem mem_insertObj {o x : GitObject} : ∀ {l : List GitObject},
    o ∈ insertObj x l → o = x ∨ o ∈ l
  | [], h => by simpa [insertObj] using h
  | y :: ys, h => by
    simp only [insertObj] at h
    split at h
    · simpa using h
    · simp only [List.mem_cons] at h
      rcases h with h | h
      · exact Or.inr (by simp [h])
      · rcases mem_insertObj h with h | h
        · exact Or.inl h
        · exact Or.inr (List.mem_cons_of_mem _ h)

theorem mem_sortObjs {o : GitObject} : ∀ {l : List GitObject},
    o ∈ sortObjs l → o ∈ l
  | [], h => by simpa [sortObjs] using h
  | x :: xs, h => by
    simp only [sortObjs] at h
    rcases mem_insertObj h with h | h
    · simp [h]
    · exact List.mem_cons_of_mem _ (mem_sortObjs h)

/-- Is the entry a plain file? -/
def isFileEntry : FsEntry → Prop
  | .file _ _ _ => True
  | .dir _ _ => False

/-- Every child built from a list of plain files is a `fileBlob` for one of
the file entries. -/
theorem from_path_children_files {hash compress : List Nat → List Nat}
    {ign parent : List (List Nat)} :
    ∀ {es : List FsEntry}, (∀ e ∈ es, isFileEntry e) →
    ∀ {os : List GitObject},
    from_path_children hash compress ign parent es = some os →
    ∀ o ∈ os, ∃ name content ex,
      FsEntry.file name content ex ∈ es ∧ o = fileBlob hash compress name content := by
  intro es
  induction es with
  | nil =>
    intro _ os h o ho
    rw [from_path_children] at h
    simp only [Option.some.injEq] at h
    rw [← h] at ho
    simp at ho
  | cons e rest ih =>
    intro hfiles os h o ho
    rw [from_path_children] at h
    by_cases hig : path_in_ignore ign (parent ++ [fsName e]) = true
    · rw [if_pos hig] at h
      obtain ⟨name, content, ex, hmem, heq⟩ :=
        ih (fun x hx => hfiles x (List.mem_cons_of_mem _ hx)) h o ho
      exact ⟨name, content, ex, List.mem_cons_of_mem _ hmem, heq⟩
    · rw [if_neg hig] at h
      cases e with
      | dir dn des => exact absurd (hfiles _ (List.mem_cons_self _ _)) (by simp [isFileEntry])
      | file name content ex =>
        rw [from_path_file] at h
        revert h
        cases hrest : from_path_children hash compress ign parent rest with
        | none => intro h; exact absurd h (by simp)
        | some os' =>
          intro h
          simp only [Option.some.injEq] at h
          rw [← h] at ho
          rcases List.mem_cons.mp ho with ho | ho
          · exact ⟨name, content, ex, List.mem_cons_self _ _, ho⟩
          · obtain ⟨nm, ct, ex', hmem, heq⟩ :=
              ih (fun x hx => hfiles x (List.mem_cons_of_mem _ hx)) hrest o ho
            exact ⟨nm, ct, ex', List.mem_cons_of_mem _ hmem, heq⟩

/-- Is the object a blob carrying a present sha? -/
def isBlobSome : GitObject → Prop
  | .blob _ _ _ (some _) => True
  | _ => False

/-- Abstract entry data of a blob object (junk on other shapes). -/
def toTE : GitObject → TEntry
  | .blob m p _ (some s) => ⟨m, p, s⟩
  | _ => ⟨.FileBlob, [], []⟩

/-- The shallow reference `from_bytes` reconstructs for an entry: same mode,
path and sha, placeholder content. -/
def shallowRef : GitObject → GitObject
  | .blob m p _ s => .blob m p (str "NOT REAL YET") s
  | o => o

theorem entryObj_toTE {o : GitObject} (h : isBlobSome o) :
    entryObj (toTE o) = shallowRef o := by
  cases o with
  | blob m p c s =>
    cases s with
    | none => exact absurd h (by simp [isBlobSome])
    | some s => rfl
  | tree m p sz objs s => exact absurd h (by simp [isBlobSome])
  | commit m s => exact absurd h (by simp [isBlobSome])

theorem tree_content_bytes_blob {o : GitObject} (h : isBlobSome o) :
    tree_content_bytes o = some (encEntry (toTE o)) := by
  cases o with
  | blob m p c s =>
    cases s with
    | none => exact absurd h (by simp [isBlobSome])
    | some s => simp [tree_content_bytes, encEntry, hdrE, toTE]
  | tree m p sz objs s => exact absurd h (by simp [isBlobSome])
  | commit m s => exact absurd h (by simp [isBlobSome])

theorem tree_content_list_blobs :
    ∀ {objs : List GitObject}, (∀ o ∈ objs, isBlobSome o) →
    tree_content_list objs = some ((objs.map toTE).flatMap encEntry)
  | [], _ => by simp [tree_content_list]
  | o :: os, hall => by
    have h1 := tree_content_bytes_blob (hall o (List.mem_cons_self _ _))
    have ih := tree_content_list_blobs (fun x hx => hall x (List.mem_cons_of_mem _ hx))
    rw [tree_content_list, h1, ih]
    simp

/-- C1 (amended): for a directory whose surviving children are all plain
files with NUL-free names, with a hash producing 20 NUL-free bytes, parsing
the decompression of the persisted tree bytes succeeds and reproduces the
tree's kind, size, and every child entry's mode, path and content hash (as a
shallow blob reference) — but the parsed root itself carries `path = None`
and `content_hash = None`, unlike the built root, which has the directory
name as path and a computed hash. -/
theorem C1_round_trip_amended
    (hash compress : List Nat → List Nat) (ign parent : List (List Nat))
    (dname : List Nat) (es : List FsEntry)
    (m : Mode) (p : Option (List Nat)) (sz : Nat) (objs : List GitObject)
    (sha : Option (List Nat))
    (hH : ∀ bs, (hash bs).length = 20 ∧ 0 ∉ hash bs)
    (hfiles : ∀ e ∈ es, isFileEntry e)
    (hnames : ∀ e ∈ es, 0 ∉ fsName e)
    (hmain : from_path hash compress ign parent (.dir dname es)
      = some (.tree m p sz objs sha))
    (hne : objs ≠ [])
    (hsz : sz < 18446744073709551616) :
    ∃ bs, tree_store_bytes (.tree m p sz objs sha) = some bs ∧
      from_bytes bs = some (.tree .SubDir none sz (objs.map shallowRef) none) := by
  obtain ⟨children, bytes, hch, htcl, heq⟩ := from_path_dir_elim hmain
  injection heq with hm hp hsz2 hobjs hsha
  subst hm; subst hp; subst hsz2; subst hobjs; subst hsha
  have hshape : ∀ o ∈ sortObjs children, isBlobSome o ∧ entryOk (toTE o) := by
    intro o ho
    obtain ⟨nm, ct, ex, hmem, hoeq⟩ :=
      from_path_children_files hfiles hch o (mem_sortObjs ho)
    subst hoeq
    refine ⟨by simp [fileBlob, isBlobSome], ?_, ?_, ?_⟩
    · simpa [fileBlob, toTE] using hnames _ hmem
    · simp only [fileBlob, toTE]
      exact (hH _).1
    · simp only [fileBlob, toTE]
      exact (hH _).2
  have htcl2 : tree_content_list (sortObjs children)
      = some (((sortObjs children).map toTE).flatMap encEntry) :=
    tree_content_list_blobs (fun o ho => (hshape o ho).1)
  have hbytes : bytes = ((sortObjs children).map toTE).flatMap encEntry := by
    rw [htcl] at htcl2
    injection htcl2
  refine ⟨str "tree " ++ natToDigits bytes.length ++ 0 :: bytes, ?_, ?_⟩
  · simp only [tree_store_bytes, htcl]
  · have hparse := parse_tree_core hsz ((sortObjs children).map toTE)
      (by simpa using hne)
      (by intro x hx
          obtain ⟨o, ho, rfl⟩ := List.mem_map.mp hx
          exact (hshape o ho).2)
    rw [← hbytes] at hparse
    have hmap : ((sortObjs children).map toTE).map entryObj
        = (sortObjs children).map shallowRef := by
      rw [List.map_map]
      exact List.map_congr_left (fun o ho => entryObj_toTE (hshape o ho).1)
    rw [hmap] at hparse
    exact hparse

theorem natToDigits_2 : natToDigits 2 = [50] := by simp [natToDigits]

theorem natToDigits_33 : natToDigits 33 = [51, 51] := by simp [natToDigits]

theorem natToDigits_100644 : natToDigits 100644 = [49, 48, 48, 54, 52, 52] := by
  simp [natToDigits]

/-- A concrete stand-in for the SHA-1 collaborator: a constant 20-byte,
NUL-free digest. -/
def hashConst : List Nat → List Nat := fun _ => List.replicate 20 65

/-- A concrete stand-in for the zlib collaborator: the identity compressor. -/
def compressId : List Nat → List Nat := fun bs => bs

/-- A concrete directory: `root/` containing the 2-byte file `a.txt`. -/
def demoDir : FsEntry := .dir (str "root") [.file (str "a.txt") (str "hi") false]

/-- The object the Tree Builder produces for `demoDir` under `hashConst` and
`compressId`. -/
def demoBuilt : GitObject :=
  .tree .SubDir (some (str "root")) 33
    [.blob .FileBlob (str "a.txt") (str "blob 2" ++ 0 :: str "hi")
      (some (List.replicate 20 65))]
    (some (List.replicate 20 65))

/-- The canonical stored bytes of `demoBuilt`: `"tree 33\0100644 a.txt\0"`
followed by the 20 sha bytes. -/
def demoBytes : List Nat :=
  str "tree 33" ++ 0 :: (str "100644 a.txt" ++ 0 :: List.replicate 20 65)

/-- What `from_bytes` returns on `demoBytes`: same size and child entry, but
a pathless, sha-less root and placeholder child content. -/
def demoParsed : GitObject :=
  .tree .SubDir none 33
    [.blob .FileBlob (str "a.txt") (str "NOT REAL YET")
      (some (List.replicate 20 65))]
    none

theorem demo_built : from_path hashConst compressId [] [] demoDir = some demoBuilt := by
  rw [demoDir, from_path, from_path_children, from_path_file, from_path_children]
  simp only [path_in_ignore, List.any_nil, Bool.false_eq_true, if_false, reduceIte]
  simp [fileBlob, hashConst, compressId, sortObjs, insertObj, tree_content_list,
    tree_content_bytes, compress_and_hash, natToDigits_2, natToDigits_100644,
    demoBuilt, str, Mode.toNat]

theorem demo_stored : tree_store_bytes demoBuilt = some demoBytes := by
  simp [tree_store_bytes, tree_content_list, tree_content_bytes, demoBuilt,
    demoBytes, natToDigits_33, natToDigits_100644, str, Mode.toNat]

theorem demo_parsed : from_bytes demoBytes = some demoParsed := by
  have h := parse_tree_core
    (show (33 : Nat) < 18446744073709551616 by norm_num)
    [⟨.FileBlob, str "a.txt", List.replicate 20 65⟩]
    (by simp)
    (by
      intro x hx
      simp only [List.mem_singleton] at hx
      subst hx
      refine ⟨by decide, by decide, by decide⟩)
  rw [show demoBytes = str "tree " ++ natToDigits 33
      ++ 0 :: (([⟨.FileBlob, str "a.txt", List.replicate 20 65⟩] : List TEntry).flatMap encEntry) from by
    simp [demoBytes, natToDigits_33, natToDigits_100644, encEntry, hdrE, str, Mode.toNat]]
  rw [h]
  simp [demoParsed, entryObj, str]

/-- C1 (counterexample): building `demoDir`, persisting the tree's canonical
bytes, and parsing them back does not reproduce the built object's path or
content hash — the parsed root has `path = None` and `sha = None`, while the
built root carries the directory name and a computed hash.  (Parsing the
decompression of the compressed stored bytes equals parsing the canonical
bytes, since decompression inverts compression.) -/
theorem C1_round_trip_counterexample :
    from_path hashConst compressId [] [] demoDir = some demoBuilt ∧
    tree_store_bytes demoBuilt = some demoBytes ∧
    from_bytes demoBytes = some demoParsed ∧
    GitObject.pathOf demoParsed ≠ GitObject.pathOf demoBuilt ∧
    GitObject.sha demoParsed ≠ GitObject.sha demoBuilt := by
  refine ⟨demo_built, demo_stored, demo_parsed, ?_, ?_⟩
  · simp [demoParsed, demoBuilt, GitObject.pathOf]
  · simp [demoParsed, demoBuilt, GitObject.sha]

/-- C1 (witness for the amended theorem): the amended round-trip instantiated
at `demoDir`. -/
theorem C1_round_trip_amended_witness :
    ∃ bs, tree_store_bytes demoBuilt = some bs ∧
      from_bytes bs = some (.tree .SubDir none 33
        ([GitObject.blob .FileBlob (str "a.txt") (str "blob 2" ++ 0 :: str "hi")
          (some (List.replicate 20 65))].map shallowRef) none) :=
  C1_round_trip_amended hashConst compressId [] [] (str "root")
    [.file (str "a.txt") (str "hi") false]
    .SubDir (some (str "root")) 33
    [.blob .FileBlob (str "a.txt") (str "blob 2" ++ 0 :: str "hi")
      (some (List.replicate 20 65))]
    (some (List.replicate 20 65))
    (fun bs => ⟨by simp [hashConst], by simp [hashConst]⟩)
    (by intro e he; simp only [List.mem_singleton] at he; subst he; trivial)
    (by intro e he; simp only [List.mem_singleton] at he; subst he; decide)
    demo_built
    (by simp)
    (by norm_num)

/-- C3 (amended): for every well-formed tree encoding `"tree <size>\0"`
followed by back-to-back entries `"<mode> <path>\0" ++ <20 sha bytes>` in
which no hash byte is NUL, the parser reconstructs every entry's mode, path,
and hash.  (The parser splits the whole input at NUL bytes and re-joins the
fragments assuming exactly 20 bytes of sha follow each NUL, which coincides
with the entry layout only when the 20 hash bytes are NUL-free.) -/
theorem C3_entry_boundaries_amended (n : Nat) (hn : n < 18446744073709551616)
    (es : List TEntry) (hne : es ≠ []) (hok : ∀ x ∈ es, entryOk x) :
    from_bytes (str "tree " ++ natToDigits n ++ 0 :: es.flatMap encEntry)
      = some (.tree .SubDir none n (es.map entryObj) none) :=
  parse_tree_core hn es hne hok

/-- A well-formed one-entry tree encoding whose 20 hash bytes begin with a
NUL byte. -/
def nulShaBytes : List Nat :=
  str "tree 33" ++ 0 :: (str "100644 a.txt" ++ 0 :: (0 :: List.replicate 19 65))

/-- C3 (counterexample): on a well-formed tree encoding whose entry hash
contains a NUL byte, the parser does not reconstruct the entry: it panics
(an out-of-range slice on a NUL-split fragment), modelled as `none` — so
entry recovery does not hold "regardless of which byte values (including
NUL) appear inside the 20 hash bytes". -/
theorem C3_entry_boundaries_counterexample :
    nulShaBytes = str "tree " ++ natToDigits 33
      ++ 0 :: (([⟨.FileBlob, str "a.txt", 0 :: List.replicate 19 65⟩] : List TEntry).flatMap encEntry) ∧
    (0 :: List.replicate 19 65).length = 20 ∧
    from_bytes nulShaBytes = none := by
  refine ⟨by simp [nulShaBytes, natToDigits_33, natToDigits_100644, encEntry, hdrE,
    str, Mode.toNat], by decide, ?_⟩
  have h : splitOn 0 nulShaBytes
      = [str "tree 33", str "100644 a.txt", [], List.replicate 19 65] := by decide
  have hh : splitOn 32 (str "tree 33") = [str "tree", str "33"] := by decide
  have hsz : usize_from_bytes (str "33") = some 33 := by decide
  exact from_bytes_tree_badlen h hh hsz (by decide)
    (by
      intro hall
      have := hall [] (by decide)
      simp at this)

/-- C3 (witness for the amended theorem): the amended recovery instantiated
at a concrete one-entry encoding. -/
theorem C3_entry_boundaries_amended_witness :
    from_bytes (str "tree " ++ natToDigits 33
        ++ 0 :: (([⟨.FileBlob, str "a.txt", List.replicate 20 65⟩] : List TEntry).flatMap encEntry))
      = some (.tree .SubDir none 33
          (([⟨.FileBlob, str "a.txt", List.replicate 20 65⟩] : List TEntry).map entryObj) none) :=
  C3_entry_boundaries_amended 33 (by norm_num)
    [⟨.FileBlob, str "a.txt", List.replicate 20 65⟩]
    (by simp)
    (by
      intro x hx
      simp only [List.mem_singleton] at hx
      subst hx
      exact ⟨by decide, by decide, by decide⟩)

/-- C2: in `compress_and_hash` (the Tree Builder's pipeline) the SHA-1 is
computed over the canonical uncompressed bytes, so it does not depend on the
compressor; but the `hash-object` command hashes the compressed stream, so
its hash changes when the compression changes.  The claim's "uniformly for
every hashing path" is therefore the spec's stated intent (section 9 calls
the reference behaviour a defect) and the `hash-object` path is the code
slip. -/
theorem C2_hash_of_canonical_bytes :
    (∀ (hash z1 z2 : List Nat → List Nat) (bytes : List Nat),
      (compress_and_hash hash z1 bytes).1 = (compress_and_hash hash z2 bytes).1) ∧
    hash_object_sha (fun bs => bs) (fun bs => 0 :: bs) (str "hello")
      ≠ hash_object_sha (fun bs => bs) (fun bs => 1 :: bs) (str "hello") := by
  refine ⟨fun hash z1 z2 bytes => rfl, ?_⟩
  decide

/-- C4 (counterexample): with equal paths the comparison returns `Equal`
(there is no Tree-before-Blob tie-break), `Commit` compares `Less` than a
`Blob` (it sorts before Blob, not after), and a pathless tree compares
`Less` than itself (so the comparison is not a total order). -/
theorem C4_ordering_counterexample :
    gitCmp (.tree .SubDir (some (str "a")) 0 [] none)
        (.blob .FileBlob (str "a") [] none) = .eq ∧
    gitCmp (.tree .SubDir (some (str "a")) 0 [] none)
        (.blob .FileBlob (str "a") [] none) ≠ .lt ∧
    gitCmp (.commit .FileBlob none) (.blob .FileBlob (str "a") [] none) = .lt ∧
    gitCmp (.commit .FileBlob none) (.blob .FileBlob (str "a") [] none) ≠ .gt ∧
    gitCmp (.tree .SubDir none 0 [] none) (.tree .SubDir none 0 [] none) = .lt := by
  refine ⟨?_, ?_, rfl, ?_, rfl⟩
  · show compareBytes (str "a") (str "a") = .eq
    decide
  · show compareBytes (str "a") (str "a") ≠ .lt
    decide
  · decide

/-- C4 (amended): any two objects with defined paths compare by byte-wise
path comparison, with `Equal` (no kind tie-break) when the paths are equal;
`Commit` compares `Less` than blobs and trees (it sorts before both, and
`Greater` read from the other side); and a pathless tree compares `Less`
than every tree, itself included, so the comparison is not a total order on
all objects, though it is total on defined-path entries. -/
theorem C4_ordering_amended :
    (∀ a b pa pb, GitObject.pathOf a = some pa → GitObject.pathOf b = some pb →
      gitCmp a b = compareBytes pa pb) ∧
    (∀ m s m' p' c' s', gitCmp (.commit m s) (.blob m' p' c' s') = .lt) ∧
    (∀ m s m' p' sz' os' s', gitCmp (.commit m s) (.tree m' p' sz' os' s') = .lt) ∧
    (∀ m p c s m' s', gitCmp (.blob m p c s) (.commit m' s') = .gt) ∧
    (∀ m p sz os s m' s', gitCmp (.tree m p sz os s) (.commit m' s') = .gt) ∧
    (∀ m sz os s m' sz' os' s',
      gitCmp (.tree m none sz os s) (.tree m' none sz' os' s') = .lt) := by
  refine ⟨?_, fun _ _ _ _ _ _ => rfl, fun _ _ _ _ _ _ _ => rfl,
    fun _ _ _ _ _ _ => rfl, fun _ p _ _ _ _ _ => by cases p <;> rfl,
    fun _ _ _ _ _ _ _ _ => rfl⟩
  intro a b pa pb ha hb
  cases a with
  | blob m p c s =>
    simp only [GitObject.pathOf, Option.some.injEq] at ha
    subst ha
    cases b with
    | blob m' p' c' s' =>
      simp only [GitObject.pathOf, Option.some.injEq] at hb
      subst hb
      rfl
    | tree m' po' sz' os' s' =>
      cases po' with
      | none => simp [GitObject.pathOf] at hb
      | some p' =>
        simp only [GitObject.pathOf, Option.some.injEq] at hb
        subst hb
        rfl
    | commit m' s' => simp [GitObject.pathOf] at hb
  | tree m po sz os s =>
    cases po with
    | none => simp [GitObject.pathOf] at ha
    | some p =>
      simp only [GitObject.pathOf, Option.some.injEq] at ha
      subst ha
      cases b with
      | blob m' p' c' s' =>
        simp only [GitObject.pathOf, Option.some.injEq] at hb
        subst hb
        rfl
      | tree m' po' sz' os' s' =>
        cases po' with
        | none => simp [GitObject.pathOf] at hb
        | some p' =>
          simp only [GitObject.pathOf, Option.some.injEq] at hb
          subst hb
          rfl
      | commit m' s' => simp [GitObject.pathOf] at hb
  | commit m s => simp [GitObject.pathOf] at ha

/-- C4 (witness for the amended theorem): two defined-path objects compare
by their paths. -/
theorem C4_ordering_amended_witness :
    gitCmp (.blob .FileBlob (str "a") [] none)
        (.tree .SubDir (some (str "b")) 0 [] none)
      = compareBytes (str "a") (str "b") :=
  C4_ordering_amended.1 _ _ _ _ rfl rfl

/-- C5 (counterexample): with the configured pattern `"txt"` (a legal
ignore-file line) and the single-component path `a.txt`, a plain string
suffix match on the rendered path text says "ignored" but `path_in_ignore`
says "not ignored": Rust's `Path::ends_with` matches whole components, not
text suffixes. -/
theorem C5_ignore_suffix_counterexample :
    ¬ (path_in_ignore [str "txt"] [str "a.txt"] = true ↔
        ∃ s ∈ [str "txt"], s.isSuffixOf (renderPath [str "a.txt"]) = true) := by
  decide

/-- C5 (amended): `path_in_ignore` returns true exactly when some configured
pattern, read as a path, has its component sequence as a suffix of the
path's component sequence (whole-component matching, Rust
`Path::ends_with`), not a plain text-suffix match. -/
theorem C5_ignore_componentwise_amended (ignore : List (List Nat))
    (p : List (List Nat)) :
    path_in_ignore ignore p = true ↔
      ∃ s ∈ ignore, ∃ pre, pre ++ pathComponents s = p := by
  simp only [path_in_ignore, List.any_eq_true]
  constructor
  · rintro ⟨s, hs, hsuf⟩
    rw [List.isSuffixOf_iff_suffix] at hsuf
    exact ⟨s, hs, hsuf⟩
  · rintro ⟨s, hs, pre, hpre⟩
    exact ⟨s, hs, by rw [List.isSuffixOf_iff_suffix]; exact ⟨pre, hpre⟩⟩

/-- Node property of every freshly built object: files get mode 100644,
directories 40000, and every node carries a computed sha. -/
def builtOk : GitObject → Bool
  | .blob m _ _ s => m == .FileBlob && s.isSome
  | .tree m _ _ _ s => m == .SubDir && s.isSome
  | .commit _ _ => false

/-- Mode part of `builtOk`. -/
def modeOk : GitObject → Bool
  | .blob m _ _ _ => m == .FileBlob
  | .tree m _ _ _ _ => m == .SubDir
  | .commit _ _ => false

/-- Sha-presence part of `builtOk`. -/
def shaSome (o : GitObject) : Bool := (GitObject.sha o).isSome

theorem allObjsList_forall (p : GitObject → Bool) :
    ∀ l : List GitObject, allObjsList p l = true ↔ ∀ o ∈ l, allObjs p o = true
  | [] => by rw [allObjsList]; simp
  | x :: xs => by
    rw [allObjsList]
    simp only [Bool.and_eq_true, allObjsList_forall p xs, List.mem_cons]
    constructor
    · rintro ⟨h1, h2⟩ o (rfl | ho)
      · exact h1
      · exact h2 o ho
    · intro h
      exact ⟨h x (Or.inl rfl), fun o ho => h o (Or.inr ho)⟩

theorem allObjs_mono {p q : GitObject → Bool} (hpq : ∀ x, p x = true → q x = true) :
    ∀ o, allObjs p o = true → allObjs q o = true := by
  have main : ∀ n o, sizeOf o ≤ n → allObjs p o = true → allObjs q o = true := by
    intro n
    induction n with
    | zero =>
      intro o hs
      cases o <;> simp at hs
    | succ n ih =>
      intro o hs hp
      cases o with
      | blob m pa c s =>
        rw [allObjs] at hp ⊢
        exact hpq _ hp
      | commit m s =>
        rw [allObjs] at hp ⊢
        exact hpq _ hp
      | tree m pa sz objs s =>
        rw [allObjs] at hp ⊢
        simp only [Bool.and_eq_true] at hp ⊢
        refine ⟨hpq _ hp.1, ?_⟩
        rw [allObjsList_forall] at hp ⊢
        intro o' ho'
        refine ih o' ?_ (hp.2 o' ho')
        have h1 := List.sizeOf_lt_of_mem ho'
        have h2 : sizeOf objs < sizeOf (GitObject.tree m pa sz objs s) := by
          simp
          omega
        omega
  intro o
  exact main (sizeOf o) o (Nat.le_refl _)

/-- Every child of a successful `from_path_children` run was built by
`from_path` from one of the directory entries. -/
theorem from_path_children_mem {hash compress : List Nat → List Nat}
    {ign parent : List (List Nat)} :
    ∀ {es : List FsEntry} {os : List GitObject},
    from_path_children hash compress ign parent es = some os →
    ∀ o ∈ os, ∃ e ∈ es, from_path hash compress ign parent e = some o := by
  intro es
  induction es with
  | nil =>
    intro os h o ho
    rw [from_path_children] at h
    simp only [Option.some.injEq] at h
    rw [← h] at ho
    simp at ho
  | cons e rest ih =>
    intro os h o ho
    rw [from_path_children] at h
    by_cases hig : path_in_ignore ign (parent ++ [fsName e]) = true
    · rw [if_pos hig] at h
      obtain ⟨e', hmem, he'⟩ := ih h o ho
      exact ⟨e', List.mem_cons_of_mem _ hmem, he'⟩
    · rw [if_neg hig] at h
      revert h
      cases hfp : from_path hash compress ign parent e with
      | none => intro h; exact absurd h (by simp)
      | some o' =>
        simp only
        cases hrest : from_path_children hash compress ign parent rest with
        | none => intro h; exact absurd h (by simp)
        | some os' =>
          intro h
          simp only [Option.some.injEq] at h
          rw [← h] at ho
          rcases List.mem_cons.mp ho with ho | ho
          · exact ⟨e, List.mem_cons_self _ _, by rw [hfp, ho]⟩
          · obtain ⟨e', hmem, he'⟩ := ih hrest o ho
            exact ⟨e', List.mem_cons_of_mem _ hmem, he'⟩

/-- Deep invariant of the Tree Builder: every node of every built object is
a blob with mode 100644 or a tree with mode 40000, and carries a sha. -/
theorem from_path_builtOk {hash compress : List Nat → List Nat}
    {ign : List (List Nat)} :
    ∀ (e : FsEntry) (parent : List (List Nat)) (o : GitObject),
    from_path hash compress ign parent e = some o → allObjs builtOk o = true := by
  have main : ∀ n (e : FsEntry), sizeOf e ≤ n → ∀ parent o,
      from_path hash compress ign parent e = some o → allObjs builtOk o = true := by
    intro n
    induction n with
    | zero =>
      intro e hs
      cases e <;> simp at hs
    | succ n ih =>
      intro e hs parent o h
      cases e with
      | file name content ex =>
        rw [from_path_file] at h
        simp only [Option.some.injEq] at h
        rw [← h, fileBlob, allObjs]
        rfl
      | dir name es =>
        obtain ⟨children, bytes, hch, htcl, heq⟩ := from_path_dir_elim h
        subst heq
        rw [allObjs]
        simp only [Bool.and_eq_true]
        refine ⟨by rfl, ?_⟩
        rw [allObjsList_forall]
        intro o' ho'
        obtain ⟨e', hmem, he'⟩ := from_path_children_mem hch o' (mem_sortObjs ho')
        refine ih e' ?_ _ _ he'
        have h1 := List.sizeOf_lt_of_mem hmem
        have h2 : sizeOf es < sizeOf (FsEntry.dir name es) := by
          simp
        omega
  intro e parent o h
  exact main (sizeOf e) e (Nat.le_refl _) parent o h

theorem natToDigits_0 : natToDigits 0 = [48] := by simp [natToDigits]

/-- The single-entry parser only ever returns blobs. -/
theorem parse_entry_blob_shape {bytes : List Nat} {o : GitObject}
    (h : parse_entry bytes = some o) : ∃ m p c s, o = .blob m p c s := by
  rw [parse_entry] at h
  split at h
  · exact absurd h (by simp)
  · split at h
    · exact absurd h (by simp)
    · split at h
      · exact absurd h (by simp)
      · split at h
        · split at h
          · simp only [Option.some.injEq] at h
            exact ⟨_, _, _, _, h.symm⟩
          · simp only [Option.some.injEq] at h
            exact ⟨_, _, _, _, h.symm⟩
        · exact absurd h (by simp)

/-- The root object of any successful parse that yields a tree carries
`path = None` and `sha = None`. -/
theorem from_bytes_tree_root_none {bytes : List Nat} {m : Mode}
    {p : Option (List Nat)} {sz : Nat} {objs : List GitObject}
    {s : Option (List Nat)}
    (h : from_bytes bytes = some (.tree m p sz objs s)) :
    s = none ∧ p = none := by
  rw [from_bytes] at h
  split at h
  · split at h
    · split at h
      · split at h
        · exact absurd h (by simp)
        · split at h
          · split at h
            · split at h
              · split at h
                · exact absurd h (by simp)
                · simp only [Option.some.injEq] at h
                  injection h with h1 h2 h3 h4 h5
                  exact ⟨h5.symm, h2.symm⟩
              · exact absurd h (by simp)
            · exact absurd h (by simp)
          · exact absurd h (by simp)
      · obtain ⟨m', p', c', s', heq⟩ := parse_entry_blob_shape h
        exact absurd heq (by simp)
    · obtain ⟨m', p', c', s', heq⟩ := parse_entry_blob_shape h
      exact absurd heq (by simp)
  · obtain ⟨m', p', c', s', heq⟩ := parse_entry_blob_shape h
    exact absurd heq (by simp)

theorem builtOk_modeOk : ∀ x, builtOk x = true → modeOk x = true := by
  intro x
  cases x <;> simp [builtOk, modeOk, Bool.and_eq_true] <;> intro h _ <;> exact h

theorem builtOk_shaSome : ∀ x, builtOk x = true → shaSome x = true := by
  intro x
  cases x <;> simp [builtOk, shaSome, GitObject.sha, Bool.and_eq_true] <;> intro _ h <;> exact h

/-- C6 (amended): every node of every freshly built object carries a `Some`
content hash, and an entry with an empty hash field parses to `None`; but
the root object of any parse that yields a tree always has
`content_hash = None` (and `path = None`) — "every object produced by a
well-formed parse of a stored tree has a Some hash" fails for the parsed
root. -/
theorem C6_sha_presence_amended :
    (∀ (hash compress : List Nat → List Nat) (ign parent : List (List Nat))
      (e : FsEntry) (o : GitObject),
      from_path hash compress ign parent e = some o → allObjs shaSome o = true) ∧
    (∀ (bytes : List Nat) (m : Mode) (p : Option (List Nat)) (sz : Nat)
      (objs : List GitObject) (s : Option (List Nat)),
      from_bytes bytes = some (.tree m p sz objs s) → s = none) := by
  constructor
  · intro hash compress ign parent e o h
    exact allObjs_mono builtOk_shaSome o (from_path_builtOk e parent o h)
  · intro bytes m p sz objs s h
    exact (from_bytes_tree_root_none h).1

/-- C6 (witness for the amended theorem): instantiated at the concrete build
of `demoDir` and the concrete parse of its stored bytes. -/
theorem C6_sha_presence_amended_witness :
    allObjs shaSome demoBuilt = true ∧ (none : Option (List Nat)) = none :=
  ⟨C6_sha_presence_amended.1 hashConst compressId [] [] demoDir demoBuilt demo_built,
   C6_sha_presence_amended.2 demoBytes .SubDir none 33
     [.blob .FileBlob (str "a.txt") (str "NOT REAL YET")
       (some (List.replicate 20 65))] none demo_parsed⟩

/-- C6 (counterexample): the stored bytes of a freshly built directory are a
well-formed stored tree, yet the object their parse produces has
`content_hash = None` — so it is not the case that every object produced by a
well-formed parse of a stored tree has a `Some` hash. -/
theorem C6_sha_counterexample :
    from_path hashConst compressId [] [] demoDir = some demoBuilt ∧
    tree_store_bytes demoBuilt = some demoBytes ∧
    from_bytes demoBytes = some demoParsed ∧
    GitObject.sha demoParsed = none :=
  ⟨demo_built, demo_stored, demo_parsed, rfl⟩

/-- C7: a built Tree's `size` field is exactly the byte length of the
concatenation of its (sorted) children's per-entry canonical encodings, as
computed by `tree_content_list` — not any recursive total of descendant file
sizes. -/
theorem C7_tree_size (hash compress : List Nat → List Nat)
    (ign parent : List (List Nat)) (name : List Nat) (es : List FsEntry)
    (m : Mode) (p : Option (List Nat)) (sz : Nat) (objs : List GitObject)
    (sha : Option (List Nat))
    (h : from_path hash compress ign parent (.dir name es)
      = some (.tree m p sz objs sha)) :
    ∃ bs, tree_content_list objs = some bs ∧ sz = bs.length := by
  obtain ⟨children, bytes, hch, htcl, heq⟩ := from_path_dir_elim h
  injection heq with h1 h2 h3 h4 h5
  subst h3
  subst h4
  exact ⟨bytes, htcl, rfl⟩

/-- C7 (witness): instantiated at the concrete build of `demoDir`, whose
single child entry encodes to 33 bytes. -/
theorem C7_tree_size_witness :
    ∃ bs, tree_content_list
        [GitObject.blob .FileBlob (str "a.txt") (str "blob 2" ++ 0 :: str "hi")
          (some (List.replicate 20 65))] = some bs ∧ 33 = bs.length :=
  C7_tree_size hashConst compressId [] [] (str "root")
    [.file (str "a.txt") (str "hi") false]
    .SubDir (some (str "root")) 33
    [.blob .FileBlob (str "a.txt") (str "blob 2" ++ 0 :: str "hi")
      (some (List.replicate 20 65))]
    (some (List.replicate 20 65))
    demo_built

/-- C8: parsing a tree entry whose hash field is empty (no bytes after the
NUL) succeeds and yields an object with `content_hash = None`. -/
theorem C8_empty_sha_entry (mode : Mode) (p : List Nat) (hp0 : 0 ∉ p) :
    from_bytes (natToDigits (Mode.toNat mode) ++ 32 :: p ++ [0])
      = some (.blob mode p (str "NOT REAL YET") none) := by
  have h := from_bytes_entry_spec mode p [] hp0 (by simp)
  simpa using h

/-- C8 (witness): the empty-hash entry `"100644 foo\0"` parses to a blob
with no sha. -/
theorem C8_empty_sha_entry_witness :
    from_bytes (natToDigits (Mode.toNat .FileBlob) ++ 32 :: str "foo" ++ [0])
      = some (.blob .FileBlob (str "foo") (str "NOT REAL YET") none) :=
  C8_empty_sha_entry .FileBlob (str "foo") (by decide)

/-- C9: the Tree Builder gives a childless directory the canonical stored
bytes `"tree 0\0"`, and `from_bytes` on exactly those bytes does not return
an empty tree: it panics (`tree_bytes[2]` is out of bounds after the NUL
split), modelled as `none`. -/
theorem C9_empty_tree_unparseable :
    from_path hashConst compressId [] [] (.dir (str "d") [])
      = some (.tree .SubDir (some (str "d")) 0 []
          (some (List.replicate 20 65))) ∧
    tree_store_bytes (.tree .SubDir (some (str "d")) 0 []
        (some (List.replicate 20 65)))
      = some (str "tree 0" ++ [0]) ∧
    from_bytes (str "tree 0" ++ [0]) = none := by
  refine ⟨?_, ?_, ?_⟩
  · rw [from_path, from_path_children]
    simp [sortObjs, tree_content_list, compress_and_hash, natToDigits_0,
      hashConst, str]
  · simp [tree_store_bytes, tree_content_list, natToDigits_0, str]
  · exact from_bytes_tree_two_fragments
      (show splitOn 0 (str "tree 0" ++ [0]) = [str "tree 0", []] by decide)
      (show splitOn 32 (str "tree 0") = [str "tree", str "0"] by decide)
      (show usize_from_bytes (str "0") = some 0 by decide)

/-- C10: every object a fresh build produces has mode 100644 at blob nodes
and 40000 at tree nodes (at every depth); a file entry always becomes the
100644 blob `fileBlob` and a directory always becomes a 40000 tree — the
executable, symlink and submodule modes are never assigned, whatever the
file's `exec` permission bit says (the builder never reads it). -/
theorem C10_fresh_build_modes (hash compress : List Nat → List Nat)
    (ign parent : List (List Nat)) (e : FsEntry) (o : GitObject)
    (h : from_path hash compress ign parent e = some o) :
    allObjs modeOk o = true ∧
    (∀ name content ex, e = .file name content ex →
      o = fileBlob hash compress name content) ∧
    (∀ name es, e = .dir name es →
      ∃ sz objs s, o = .tree .SubDir (some name) sz objs s) := by
  refine ⟨allObjs_mono builtOk_modeOk o (from_path_builtOk e parent o h), ?_, ?_⟩
  · intro name content ex he
    subst he
    rw [from_path_file] at h
    simp only [Option.some.injEq] at h
    exact h.symm
  · intro name es he
    subst he
    obtain ⟨children, bytes, hch, htcl, heq⟩ := from_path_dir_elim h
    exact ⟨bytes.length, sortObjs children, some (hash (str "tree "
      ++ natToDigits bytes.length ++ 0 :: bytes)), heq⟩

/-- C10 (witness): instantiated at `demoDir` — the build of an ordinary
directory with one non-executable file. -/
theorem C10_fresh_build_modes_witness :
    allObjs modeOk demoBuilt = true :=
  (C10_fresh_build_modes hashConst compressId [] [] demoDir demoBuilt demo_built).1
